import Mathlib

/-!
Verification development for the append-only key-value store in
src/kv_store.py (class SimpleKVStore).

Shallow embedding conventions:
- A byte is a Nat (values 0..255 in well-formed data; nothing in the
  source inspects byte ranges beyond the parsers modelled here).
- A Python str is modelled as a list of Unicode codepoints (Str below);
  encode("utf-8") / decode("utf-8") are modelled by an executable UTF-8
  codec over codepoint lists, strict in the same way as CPython
  (rejecting overlong forms, surrogates and out-of-range codepoints).
- The on-disk log file is a list of bytes.  File reads in the source
  become list slices; a Python read that returns fewer bytes than asked
  becomes a slice shorter than asked.  A Python seek past end-of-file
  succeeds (as it does in CPython on a regular file); this matters for
  the replay loop, where the seek over the value bytes cannot fail.
- The Python dict index is an association list with dict semantics:
  assignment overwrites in place when the key is present and appends
  otherwise; lookup returns the first (unique) match.
- Fallible operations return explicit error values; an exception that
  the source catches and converts (for example get catching IOError and
  returning None) is modelled by the converted result, matching the
  behaviour visible to the caller.
- I/O failure during set is modelled by an explicit outcome parameter:
  AppendOutcome.ok is the normal path, AppendOutcome.fail n the path
  where the append raises after n bytes of the record reached the file.
-/

/-- A Python str value: a list of Unicode codepoints. -/
abbrev Str := List Nat

/-- A codepoint a Python str can hold and encode to UTF-8: in range and
not a surrogate (CPython raises UnicodeEncodeError on surrogates). -/
def validCodepoint (c : Nat) : Prop := c < 1114112 ∧ ¬(55296 ≤ c ∧ c ≤ 57343)

instance (c : Nat) : Decidable (validCodepoint c) := by
  unfold validCodepoint; infer_instance

/-- Every codepoint of the string is encodable. -/
def ValidStr (s : Str) : Prop := ∀ c ∈ s, validCodepoint c

instance (s : Str) : Decidable (ValidStr s) := by
  unfold ValidStr; infer_instance

/-- UTF-8 encoding of one codepoint (CPython str.encode, per codepoint). -/
def utf8EncodeChar (c : Nat) : List Nat :=
  if c < 128 then [c]
  else if c < 2048 then [192 + c / 64, 128 + c % 64]
  else if c < 65536 then [224 + c / 4096, 128 + c / 64 % 64, 128 + c % 64]
  else [240 + c / 262144, 128 + c / 4096 % 64, 128 + c / 64 % 64, 128 + c % 64]

/-- UTF-8 encoding of a str: concatenation of per-codepoint encodings.
Models Python s.encode("utf-8") for strings satisfying ValidStr. -/
def utf8Encode (s : Str) : List Nat :=
  s.foldr (fun c acc => utf8EncodeChar c ++ acc) []

/-- Is this byte a UTF-8 continuation byte (10xxxxxx)? -/
def isContByte (b : Nat) : Prop := 128 ≤ b ∧ b < 192

instance (b : Nat) : Decidable (isContByte b) := by
  unfold isContByte; infer_instance

/-- Strict UTF-8 decoding of one scalar from the front of a byte list,
returning the codepoint and the remaining bytes, or none on malformed
input.  The range checks after reassembly are equivalent to the strict decoder of CPython (overlong forms, surrogates and codepoints past U+10FFFF
are rejected). -/
def utf8DecodeChar : List Nat → Option (Nat × List Nat)
  | [] => none
  | b :: bs =>
    if b < 128 then some (b, bs)
    else if b < 192 then none
    else if b < 224 then
      match bs with
      | b1 :: r =>
        if isContByte b1 then
          let c := (b - 192) * 64 + (b1 - 128)
          if 128 ≤ c then some (c, r) else none
        else none
      | [] => none
    else if b < 240 then
      match bs with
      | b1 :: b2 :: r =>
        if isContByte b1 ∧ isContByte b2 then
          let c := (b - 224) * 4096 + (b1 - 128) * 64 + (b2 - 128)
          if 2048 ≤ c ∧ ¬(55296 ≤ c ∧ c ≤ 57343) then some (c, r) else none
        else none
      | _ => none
    else if b < 248 then
      match bs with
      | b1 :: b2 :: b3 :: r =>
        if isContByte b1 ∧ isContByte b2 ∧ isContByte b3 then
          let c := (b - 240) * 262144 + (b1 - 128) * 4096 + (b2 - 128) * 64 + (b3 - 128)
          if 65536 ≤ c ∧ c < 1114112 then some (c, r) else none
        else none
      | _ => none
    else none

/-- Fuelled UTF-8 decoding loop; each step consumes at least one byte,
so fuel equal to the byte count suffices. -/
def utf8DecodeAux : Nat → List Nat → Option Str
  | _, [] => some []
  | 0, _ :: _ => none
  | fuel + 1, b :: bs =>
    match utf8DecodeChar (b :: bs) with
    | none => none
    | some (c, r) =>
      match utf8DecodeAux fuel r with
      | none => none
      | some s => some (c :: s)

/-- Models Python bytes.decode("utf-8"): some str on success, none when
the bytes are not valid UTF-8 (a raised UnicodeDecodeError). -/
def utf8Decode (l : List Nat) : Option Str := utf8DecodeAux l.length l

/-- Models Python int.to_bytes(4, "big") for n < 2^32 (the source only
calls it on byte lengths of encoded strings). -/
def toBytesBE4 (n : Nat) : List Nat :=
  [n / 16777216 % 256, n / 65536 % 256, n / 256 % 256, n % 256]

/-- Models Python int.from_bytes(bs, "big"). -/
def fromBytesBE (bs : List Nat) : Nat :=
  bs.foldl (fun a b => a * 256 + b) 0

/-- Bytes obtained by seeking to pos and reading n bytes from the file:
short (or empty) when fewer than n bytes remain, exactly like a Python
read near end-of-file. -/
def sliceBytes (file : List Nat) (pos n : Nat) : List Nat :=
  (file.drop pos).take n

/-- src/kv_store.py class IndexEntry: offset and value length of one
record, as stored in the in-memory index. -/
structure IndexEntry where
  offset : Nat
  value_length : Nat
deriving DecidableEq

/-- The in-memory index: a Python dict from key to IndexEntry, modelled
as an association list in insertion order. -/
abbrev Dict := List (Str × IndexEntry)

/-- Python dict lookup (index.get(key)): first (unique) match. -/
def dictGet : Dict → Str → Option IndexEntry
  | [], _ => none
  | p :: d, k => if p.1 = k then some p.2 else dictGet d k

/-- Python dict assignment (index[key] = entry): overwrite in place when
the key is present, append otherwise. -/
def dictInsert (d : Dict) (k : Str) (e : IndexEntry) : Dict :=
  if d.any (fun p => decide (p.1 = k)) then
    d.map (fun p => if p.1 = k then (k, e) else p)
  else d ++ [(k, e)]

/-- src/kv_store.py class SimpleKVStore: the persistent state is the
content of the data file; the volatile state is the index.  A missing
data file behaves exactly like an empty one in every modelled code path,
so the file is simply a byte list. -/
structure SimpleKVStore where
  file : List Nat
  index : Dict
deriving DecidableEq

/-- A store as produced by SimpleKVStore() with no pre-existing file. -/
def emptyStore : SimpleKVStore := ⟨[], []⟩

/-- One iteration of the while-loop body of
SimpleKVStore._rebuild_index (src/kv_store.py lines 141-211) starting at
file position pos.  Returns the decoded key, the value length and the
position after the skipped value on success; none models every break
(clean EOF, partial length field, oversized key or value length,
partial key, invalid UTF-8 in the key).  The seek over the value bytes
never fails in CPython, even past end-of-file, so it has no failure
branch here. -/
def readRecord (file : List Nat) (pos : Nat) : Option (Str × Nat × Nat) :=
  let klb := sliceBytes file pos 4
  if klb.length = 0 then none
  else if klb.length < 4 then none
  else
    let keyLen := fromBytesBE klb
    if 65536 < keyLen then none
    else
      let vlb := sliceBytes file (pos + 4) 4
      if vlb.length < 4 then none
      else
        let valLen := fromBytesBE vlb
        if 1048576 < valLen then none
        else
          let keyBytes := sliceBytes file (pos + 8) keyLen
          if keyBytes.length < keyLen then none
          else
            match utf8Decode keyBytes with
            | none => none
            | some key => some (key, valLen, pos + 8 + keyLen + valLen)

theorem sliceBytes_length (file : List Nat) (pos n : Nat) :
    (sliceBytes file pos n).length = min n (file.length - pos) := by
  simp [sliceBytes]

/-- A successfully parsed record starts strictly inside the file and its
successor position is strictly larger. -/
theorem readRecord_progress {file : List Nat} {pos : Nat} {k : Str} {vl np : Nat}
    (h : readRecord file pos = some (k, vl, np)) :
    pos < file.length ∧ pos < np := by
  unfold readRecord at h
  simp only [sliceBytes_length] at h
  split at h
  · exact absurd h (by simp)
  · split at h
    · exact absurd h (by simp)
    · rename_i h0 h1
      constructor
      · omega
      · split at h
        · exact absurd h (by simp)
        · split at h
          · exact absurd h (by simp)
          · split at h
            · exact absurd h (by simp)
            · split at h
              · exact absurd h (by simp)
              · split at h
                · exact absurd h (by simp)
                · simp only [Option.some.injEq, Prod.mk.injEq] at h
                  omega

/-- The while-loop of SimpleKVStore._rebuild_index: parse records from
pos, folding each into the index dict, stopping at the first failed
parse. -/
def rebuildLoop (file : List Nat) (pos : Nat) (idx : Dict) : Dict :=
  match h : readRecord file pos with
  | none => idx
  | some (key, valLen, nextPos) =>
    rebuildLoop file nextPos (dictInsert idx key ⟨pos, valLen⟩)
termination_by file.length - pos
decreasing_by
  have := readRecord_progress h
  omega

/-- src/kv_store.py SimpleKVStore._rebuild_index: clear the index, then
replay the log from offset 0. -/
def rebuildIndex (st : SimpleKVStore) : SimpleKVStore :=
  ⟨st.file, rebuildLoop st.file 0 []⟩

/-- The record sequence produced by replaying the log from pos (the
Replay of the specification), together with the position at which the
replay stopped.  Same recursion as rebuildLoop, yielding the records
instead of folding them. -/
def replayAux (file : List Nat) (pos : Nat) : List (Str × Nat × Nat) × Nat :=
  match h : readRecord file pos with
  | none => ([], pos)
  | some (key, valLen, nextPos) =>
    let r := replayAux file nextPos
    ((key, pos, valLen) :: r.1, r.2)
termination_by file.length - pos
decreasing_by
  have := readRecord_progress h
  omega

/-- The replay of the whole log consumed every byte of the file: there
is no torn tail and no stop before the physical end. -/
def replayComplete (file : List Nat) : Prop := (replayAux file 0).2 = file.length

/-- The byte sequence appended to the log by one successful set:
4-byte big-endian key length, 4-byte big-endian value length, key bytes,
value bytes (src/kv_store.py lines 295-304). -/
def recordBytes (keyBytes valueBytes : List Nat) : List Nat :=
  toBytesBE4 keyBytes.length ++ toBytesBE4 valueBytes.length ++ keyBytes ++ valueBytes

/-- Errors a set call can surface to its caller. -/
inductive SetErr
  | valueError
  | ioError
  | runtimeError
deriving DecidableEq

/-- Outcome of the underlying append I/O: ok is the normal path; fail n
is an open/write/flush/fsync failure after which n bytes of the record
reached the file (any such failure raises IOError or OSError inside the
try block of set, before the index update). -/
inductive AppendOutcome
  | ok
  | fail (written : Nat)
deriving DecidableEq

/-- Result of a set call: the error surfaced to the caller, if any, and
the store state afterwards. -/
structure SetResult where
  err : Option SetErr
  st : SimpleKVStore
deriving DecidableEq

/-- src/kv_store.py SimpleKVStore.set (lines 241-338).  Validation
raises ValueError on an empty key.  An encoded length not representable
in 4 bytes makes int.to_bytes raise OverflowError, which the generic
except-clause converts to RuntimeError; the model checks this before
consulting the I/O outcome, fixing one interleaving of the two failure
kinds (they can only compete when a length exceeds 32 bits, which every
claim below excludes).  On the normal path the record
is appended at end-of-file, whose prior length is the recorded offset,
and the index entry is overwritten; on an I/O failure the error
propagates and the index statement is never reached. -/
def SimpleKVStore.set (st : SimpleKVStore) (key value : Str)
    (outcome : AppendOutcome) : SetResult :=
  if key = [] then ⟨some .valueError, st⟩
  else
    let keyBytes := utf8Encode key
    let valueBytes := utf8Encode value
    if 4294967296 ≤ keyBytes.length ∨ 4294967296 ≤ valueBytes.length then
      ⟨some .runtimeError, st⟩
    else
      let offset := st.file.length
      let record := recordBytes keyBytes valueBytes
      match outcome with
      | .ok =>
        ⟨none, ⟨st.file ++ record, dictInsert st.index key ⟨offset, valueBytes.length⟩⟩⟩
      | .fail n =>
        ⟨some .ioError, ⟨st.file ++ record.take n, st.index⟩⟩

/-- Errors a get call can surface to its caller.  Only ValueError
escapes get in the source: every IOError, OSError or other exception of
the read path is caught by the except clauses at lines 413-429, which
return None instead. -/
inductive GetErr
  | valueError
deriving DecidableEq

deriving instance DecidableEq for Except

/-- Result of a get call: the value surfaced to the caller (ok none is
the not-found outcome), and the store state afterwards (get performs no
writes). -/
structure GetResult where
  ret : Except GetErr (Option Str)
  st : SimpleKVStore
deriving DecidableEq

/-- The try-block body of SimpleKVStore.get (lines 376-411): seek to the
index entry, read the key length from the file, skip the value length
field and the key, read entry.value_length bytes and decode them.  none
models a raised IOError (short read) or UnicodeDecodeError; the caller
of this body catches those. -/
def readValueBody (file : List Nat) (entry : IndexEntry) : Option Str :=
  let klb := sliceBytes file entry.offset 4
  if klb.length < 4 then none
  else
    let keyLen := fromBytesBE klb
    let vlb := sliceBytes file (entry.offset + 4) 4
    if vlb.length < 4 then none
    else
      let valueBytes := sliceBytes file (entry.offset + 8 + keyLen) entry.value_length
      if valueBytes.length < entry.value_length then none
      else utf8Decode valueBytes

/-- src/kv_store.py SimpleKVStore.get (lines 340-438).  Empty key raises
ValueError; a key absent from the index returns None; otherwise the
value is read from the file, and any failure of that read is caught and
converted to a None return (lines 413-429). -/
def SimpleKVStore.get (st : SimpleKVStore) (key : Str) : GetResult :=
  if key = [] then ⟨.error .valueError, st⟩
  else
    match dictGet st.index key with
    | none => ⟨.ok none, st⟩
    | some entry =>
      match readValueBody st.file entry with
      | some v => ⟨.ok (some v), st⟩
      | none => ⟨.ok none, st⟩

/-- A sequence of set calls applied in order (each with its own I/O
outcome), as issued by the command loop. -/
def applyOps (st : SimpleKVStore) : List (Str × Str × AppendOutcome) → SimpleKVStore
  | [] => st
  | (k, v, oc) :: rest => applyOps (st.set k v oc).st rest

/-! ## Byte and slice lemmas -/

theorem sliceBytes_out {file : List Nat} {pos : Nat} (n : Nat)
    (h : file.length ≤ pos) : sliceBytes file pos n = [] := by
  have : file.drop pos = [] := List.drop_eq_nil_of_le h
  simp [sliceBytes, this]

theorem sliceBytes_append_left {a : List Nat} (b : List Nat) {pos n : Nat}
    (h : pos + n ≤ a.length) : sliceBytes (a ++ b) pos n = sliceBytes a pos n := by
  unfold sliceBytes
  rw [List.drop_append_of_le_length (by omega)]
  rw [List.take_append_of_le_length (by simp; omega)]

theorem sliceBytes_append_right (a b : List Nat) (q n : Nat) :
    sliceBytes (a ++ b) (a.length + q) n = sliceBytes b q n := by
  unfold sliceBytes
  rw [List.drop_append]

theorem toBytesBE4_length (n : Nat) : (toBytesBE4 n).length = 4 := rfl

theorem fromBytesBE_toBytesBE4 {n : Nat} (h : n < 4294967296) :
    fromBytesBE (toBytesBE4 n) = n := by
  simp only [toBytesBE4, fromBytesBE, List.foldl_cons, List.foldl_nil]
  omega

/-! ## UTF-8 codec lemmas -/

theorem utf8EncodeChar_length_pos (c : Nat) : 1 ≤ (utf8EncodeChar c).length := by
  unfold utf8EncodeChar
  split <;> simp_all
  split <;> simp_all
  split <;> simp_all

theorem utf8DecodeChar_encodeChar {c : Nat} (r : List Nat) (h : validCodepoint c) :
    utf8DecodeChar (utf8EncodeChar c ++ r) = some (c, r) := by
  obtain ⟨hub, hsurr⟩ := h
  unfold utf8EncodeChar
  by_cases h1 : c < 128
  · simp [utf8DecodeChar, h1]
  · by_cases h2 : c < 2048
    · simp only [if_neg h1, if_pos h2, List.cons_append, List.nil_append]
      simp only [utf8DecodeChar]
      rw [if_neg (by omega), if_neg (by omega), if_pos (by omega)]
      rw [if_pos (show isContByte (128 + c % 64) from ⟨by omega, by omega⟩)]
      have hc : (192 + c / 64 - 192) * 64 + (128 + c % 64 - 128) = c := by omega
      simp only [hc]
      rw [if_pos (by omega)]
    · by_cases h3 : c < 65536
      · simp only [if_neg h1, if_neg h2, if_pos h3, List.cons_append, List.nil_append]
        simp only [utf8DecodeChar]
        rw [if_neg (by omega), if_neg (by omega), if_neg (by omega), if_pos (by omega)]
        rw [if_pos (show isContByte (128 + c / 64 % 64) ∧ isContByte (128 + c % 64) from
          ⟨⟨by omega, by omega⟩, by omega, by omega⟩)]
        have hc : (224 + c / 4096 - 224) * 4096 + (128 + c / 64 % 64 - 128) * 64 +
            (128 + c % 64 - 128) = c := by omega
        simp only [hc]
        rw [if_pos (by omega)]
      · simp only [if_neg h1, if_neg h2, if_neg h3, List.cons_append, List.nil_append]
        simp only [utf8DecodeChar]
        rw [if_neg (by omega), if_neg (by omega), if_neg (by omega), if_neg (by omega),
          if_pos (by omega)]
        rw [if_pos (show isContByte (128 + c / 4096 % 64) ∧ isContByte (128 + c / 64 % 64) ∧
            isContByte (128 + c % 64) from
          ⟨⟨by omega, by omega⟩, ⟨by omega, by omega⟩, by omega, by omega⟩)]
        have hc : (240 + c / 262144 - 240) * 262144 + (128 + c / 4096 % 64 - 128) * 4096 +
            (128 + c / 64 % 64 - 128) * 64 + (128 + c % 64 - 128) = c := by omega
        simp only [hc]
        rw [if_pos (by omega)]

theorem utf8DecodeAux_encode {s : Str} (h : ValidStr s) :
    ∀ fuel, (utf8Encode s).length ≤ fuel → utf8DecodeAux fuel (utf8Encode s) = some s := by
  induction s with
  | nil => intro fuel _; simp [utf8Encode, utf8DecodeAux]
  | cons c s ih =>
    intro fuel hfuel
    have hc : validCodepoint c := h c (by simp)
    have hs : ValidStr s := fun x hx => h x (by simp [hx])
    have hstep : utf8Encode (c :: s) = utf8EncodeChar c ++ utf8Encode s := rfl
    have hlen : 1 ≤ (utf8EncodeChar c).length := utf8EncodeChar_length_pos c
    rw [hstep] at hfuel ⊢
    obtain ⟨b, tail, hbt⟩ : ∃ b tail, utf8EncodeChar c = b :: tail := by
      cases hcc : utf8EncodeChar c with
      | nil => rw [hcc] at hlen; simp at hlen
      | cons b tail => exact ⟨b, tail, rfl⟩
    obtain ⟨f, rfl⟩ : ∃ f, fuel = f + 1 := by
      rw [hbt] at hfuel; simp at hfuel; exact ⟨fuel - 1, by omega⟩
    rw [hbt, List.cons_append]
    show (match utf8DecodeChar (b :: (tail ++ utf8Encode s)) with
      | none => none
      | some (c, r) =>
        match utf8DecodeAux f r with
        | none => none
        | some s => some (c :: s)) = some (c :: s)
    rw [show b :: (tail ++ utf8Encode s) = utf8EncodeChar c ++ utf8Encode s by
      rw [hbt, List.cons_append]]
    rw [utf8DecodeChar_encodeChar _ hc]
    show (match utf8DecodeAux f (utf8Encode s) with
      | none => none
      | some s => some (c :: s)) = some (c :: s)
    rw [ih hs f (by rw [hbt] at hfuel; simp at hfuel; omega)]

theorem utf8Decode_encode {s : Str} (h : ValidStr s) :
    utf8Decode (utf8Encode s) = some s :=
  utf8DecodeAux_encode h _ le_rfl

/-! ## Dict lemmas -/

theorem dictGet_none_of_not_any {d : Dict} {k : Str}
    (h : d.any (fun p => decide (p.1 = k)) = false) : dictGet d k = none := by
  induction d with
  | nil => rfl
  | cons p d ih =>
    simp only [List.any_cons, Bool.or_eq_false_iff, decide_eq_false_iff_not] at h
    simp [dictGet, h.1, ih h.2]

theorem dictGet_map_update {d : Dict} {k : Str} (e : IndexEntry)
    (h : d.any (fun p => decide (p.1 = k)) = true) :
    dictGet (d.map (fun p => if p.1 = k then (k, e) else p)) k = some e := by
  induction d with
  | nil => simp at h
  | cons p d ih =>
    simp only [List.any_cons, Bool.or_eq_true, decide_eq_true_eq] at h
    by_cases hp : p.1 = k
    · simp [dictGet, hp]
    · have hd : d.any (fun p => decide (p.1 = k)) = true := by
        rcases h with h | h
        · exact absurd h hp
        · exact h
      simp [dictGet, hp, ih hd]

theorem dictGet_map_other {d : Dict} {k k' : Str} (e : IndexEntry) (hne : k' ≠ k) :
    dictGet (d.map (fun p => if p.1 = k then (k, e) else p)) k' = dictGet d k' := by
  induction d with
  | nil => rfl
  | cons p d ih =>
    simp only [List.map_cons]
    by_cases hp : p.1 = k
    · rw [if_pos hp]
      show (if k = k' then some e else
        dictGet (d.map (fun p => if p.1 = k then (k, e) else p)) k') = _
      have h1 : k ≠ k' := fun h => hne h.symm
      have h2 : p.1 ≠ k' := by rw [hp]; exact h1
      rw [if_neg h1, ih]
      show _ = (if p.1 = k' then some p.2 else dictGet d k')
      rw [if_neg h2]
    · rw [if_neg hp]
      show (if p.1 = k' then some p.2 else
        dictGet (d.map (fun p => if p.1 = k then (k, e) else p)) k') = _
      show _ = (if p.1 = k' then some p.2 else dictGet d k')
      by_cases h2 : p.1 = k'
      · rw [if_pos h2, if_pos h2]
      · rw [if_neg h2, if_neg h2, ih]

theorem dictGet_append_single_self {d : Dict} {k : Str} (e : IndexEntry)
    (h : dictGet d k = none) : dictGet (d ++ [(k, e)]) k = some e := by
  induction d with
  | nil =>
    show (if k = k then some e else dictGet [] k) = some e
    rw [if_pos rfl]
  | cons p d ih =>
    simp only [dictGet] at h
    by_cases hp : p.1 = k
    · rw [if_pos hp] at h; exact absurd h (by simp)
    · rw [if_neg hp] at h
      show (if p.1 = k then some p.2 else dictGet (d ++ [(k, e)]) k) = some e
      rw [if_neg hp, ih h]

theorem dictGet_append_single_ne {d : Dict} {k k' : Str} (e : IndexEntry) (hne : k' ≠ k) :
    dictGet (d ++ [(k, e)]) k' = dictGet d k' := by
  induction d with
  | nil =>
    show (if k = k' then some e else dictGet [] k') = none
    rw [if_neg (fun h => hne h.symm)]
    rfl
  | cons p d ih =>
    show (if p.1 = k' then some p.2 else dictGet (d ++ [(k, e)]) k') =
      (if p.1 = k' then some p.2 else dictGet d k')
    by_cases hp : p.1 = k'
    · rw [if_pos hp, if_pos hp]
    · rw [if_neg hp, if_neg hp, ih]

/-- Python dict assignment followed by lookup: the assigned key now maps
to the new entry; every other key is untouched. -/
theorem dictGet_dictInsert (d : Dict) (k k' : Str) (e : IndexEntry) :
    dictGet (dictInsert d k e) k' = if k' = k then some e else dictGet d k' := by
  unfold dictInsert
  by_cases hany : d.any (fun p => decide (p.1 = k)) = true
  · rw [if_pos hany]
    by_cases hk : k' = k
    · subst hk; rw [if_pos rfl]; exact dictGet_map_update e hany
    · rw [if_neg hk]; exact dictGet_map_other e hk
  · rw [if_neg hany]
    have hfalse : d.any (fun p => decide (p.1 = k)) = false := by
      cases hb : d.any (fun p => decide (p.1 = k)) with
      | false => rfl
      | true => exact absurd hb hany
    have hnone : dictGet d k = none := dictGet_none_of_not_any hfalse
    by_cases hk : k' = k
    · subst hk
      rw [if_pos rfl]
      exact dictGet_append_single_self e hnone
    · rw [if_neg hk]
      exact dictGet_append_single_ne e hk

theorem readRecord_out {file : List Nat} {pos : Nat} (h : file.length ≤ pos) :
    readRecord file pos = none := by
  unfold readRecord
  rw [sliceBytes_out 4 h]
  simp

theorem readRecord_stable {file : List Nat} {pos : Nat} {t : Str × Nat × Nat} (ext : List Nat)
    (h : readRecord file pos = some t) : readRecord (file ++ ext) pos = some t := by
  unfold readRecord at h ⊢
  simp only [] at h ⊢
  by_cases h1 : (sliceBytes file pos 4).length = 0
  · rw [if_pos h1] at h; exact absurd h (by simp)
  rw [if_neg h1] at h
  by_cases h2 : (sliceBytes file pos 4).length < 4
  · rw [if_pos h2] at h; exact absurd h (by simp)
  rw [if_neg h2] at h
  have hp4 : pos + 4 ≤ file.length := by
    have := sliceBytes_length file pos 4; omega
  rw [sliceBytes_append_left ext hp4, if_neg h1, if_neg h2]
  by_cases h3 : 65536 < fromBytesBE (sliceBytes file pos 4)
  · rw [if_pos h3] at h; exact absurd h (by simp)
  rw [if_neg h3] at h
  rw [if_neg h3]
  by_cases h4 : (sliceBytes file (pos + 4) 4).length < 4
  · rw [if_pos h4] at h; exact absurd h (by simp)
  rw [if_neg h4] at h
  have hp8 : pos + 4 + 4 ≤ file.length := by
    have := sliceBytes_length file (pos + 4) 4; omega
  rw [sliceBytes_append_left ext hp8, if_neg h4]
  by_cases h5 : 1048576 < fromBytesBE (sliceBytes file (pos + 4) 4)
  · rw [if_pos h5] at h; exact absurd h (by simp)
  rw [if_neg h5] at h
  rw [if_neg h5]
  by_cases h6 : (sliceBytes file (pos + 8) (fromBytesBE (sliceBytes file pos 4))).length <
      fromBytesBE (sliceBytes file pos 4)
  · rw [if_pos h6] at h; exact absurd h (by simp)
  rw [if_neg h6] at h
  have hpk : pos + 8 + fromBytesBE (sliceBytes file pos 4) ≤ file.length := by
    have := sliceBytes_length file (pos + 8) (fromBytesBE (sliceBytes file pos 4)); omega
  rw [sliceBytes_append_left ext hpk, if_neg h6]
  exact h

theorem sliceBytes_append_start (a b : List Nat) (n : Nat) :
    sliceBytes (a ++ b) a.length n = sliceBytes b 0 n := by
  have h := sliceBytes_append_right a b 0 n
  simpa using h

theorem recordBytes_length (kb vb : List Nat) :
    (recordBytes kb vb).length = 8 + kb.length + vb.length := by
  simp [recordBytes, toBytesBE4]
  omega

theorem readRecord_at_end (file : List Nat) {kb vb : List Nat} {k : Str}
    (h1 : kb.length ≤ 65536) (h2 : vb.length ≤ 1048576)
    (hdec : utf8Decode kb = some k) :
    readRecord (file ++ recordBytes kb vb) file.length =
      some (k, vb.length, file.length + (recordBytes kb vb).length) := by
  have e1 : sliceBytes (recordBytes kb vb) 0 4 = toBytesBE4 kb.length := by
    simp [recordBytes, toBytesBE4, sliceBytes]
  have e2 : sliceBytes (recordBytes kb vb) 4 4 = toBytesBE4 vb.length := by
    simp [recordBytes, toBytesBE4, sliceBytes]
  have e3 : sliceBytes (recordBytes kb vb) 8 kb.length = kb := by
    simp [recordBytes, toBytesBE4, sliceBytes, List.take_left]
  unfold readRecord
  simp only []
  rw [sliceBytes_append_start, e1]
  rw [fromBytesBE_toBytesBE4 (by omega)]
  rw [if_neg (by simp [toBytesBE4_length])]
  rw [if_neg (by simp [toBytesBE4_length])]
  rw [if_neg (by omega)]
  rw [sliceBytes_append_right file (recordBytes kb vb) 4 4, e2]
  rw [if_neg (by simp [toBytesBE4_length])]
  rw [fromBytesBE_toBytesBE4 (by omega)]
  rw [if_neg (by omega)]
  rw [sliceBytes_append_right file (recordBytes kb vb) 8 kb.length, e3]
  rw [if_neg (by omega)]
  rw [hdec]
  have hlen : file.length + 8 + kb.length + vb.length =
      file.length + (recordBytes kb vb).length := by
    rw [recordBytes_length]; omega
  rw [hlen]

theorem replayAux_stop {file : List Nat} {pos : Nat} (h : readRecord file pos = none) :
    replayAux file pos = ([], pos) := by
  rw [replayAux.eq_def, h]

theorem replayAux_step {file : List Nat} {pos : Nat} {k : Str} {vl np : Nat}
    (h : readRecord file pos = some (k, vl, np)) :
    replayAux file pos = ((k, pos, vl) :: (replayAux file np).1, (replayAux file np).2) := by
  rw [replayAux.eq_def, h]

theorem rebuildLoop_stop {file : List Nat} {pos : Nat} {idx : Dict}
    (h : readRecord file pos = none) : rebuildLoop file pos idx = idx := by
  rw [rebuildLoop.eq_def, h]

theorem rebuildLoop_step {file : List Nat} {pos : Nat} {idx : Dict} {k : Str} {vl np : Nat}
    (h : readRecord file pos = some (k, vl, np)) :
    rebuildLoop file pos idx = rebuildLoop file np (dictInsert idx k ⟨pos, vl⟩) := by
  rw [rebuildLoop.eq_def, h]

/-- The rebuild loop is the fold of dict assignment over the replayed
record sequence. -/
theorem rebuildLoop_eq_foldl (file : List Nat) (pos : Nat) (idx : Dict) :
    rebuildLoop file pos idx =
      (replayAux file pos).1.foldl (fun d r => dictInsert d r.1 ⟨r.2.1, r.2.2⟩) idx := by
  induction pos, idx using rebuildLoop.induct file with
  | case1 pos idx h =>
    rw [rebuildLoop_stop h, replayAux_stop h]
    rfl
  | case2 pos idx k vl np h ih =>
    rw [rebuildLoop_step h, replayAux_step h, ih]
    simp

/-- Left-biased choice on optional index entries. -/
def orElseO (a b : Option IndexEntry) : Option IndexEntry :=
  match a with
  | some e => some e
  | none => b

/-- The entry of the last (highest-offset) replayed record carrying key
k, if any: the reference meaning of last-write-wins over a replayed
record sequence. -/
def lastEntry (recs : List (Str × Nat × Nat)) (k : Str) : Option IndexEntry :=
  match recs with
  | [] => none
  | r :: rest => orElseO (lastEntry rest k) (if r.1 = k then some ⟨r.2.1, r.2.2⟩ else none)

theorem dictGet_foldl (recs : List (Str × Nat × Nat)) (d : Dict) (k : Str) :
    dictGet (recs.foldl (fun d r => dictInsert d r.1 ⟨r.2.1, r.2.2⟩) d) k =
      orElseO (lastEntry recs k) (dictGet d k) := by
  induction recs generalizing d with
  | nil => rfl
  | cons r rest ih =>
    rw [List.foldl_cons, ih]
    show _ = orElseO (orElseO (lastEntry rest k) (if r.1 = k then some ⟨r.2.1, r.2.2⟩ else none))
      (dictGet d k)
    rw [dictGet_dictInsert]
    cases hl : lastEntry rest k with
    | some e => rfl
    | none =>
      show (if k = r.1 then some ⟨r.2.1, r.2.2⟩ else dictGet d k) =
        orElseO (if r.1 = k then some ⟨r.2.1, r.2.2⟩ else none) (dictGet d k)
      by_cases hk : r.1 = k
      · rw [if_pos hk, if_pos hk.symm]; rfl
      · rw [if_neg hk, if_neg (fun h => hk h.symm)]; rfl

theorem lastEntry_append_single (l : List (Str × Nat × Nat)) (k0 k : Str) (off vl : Nat) :
    lastEntry (l ++ [(k0, off, vl)]) k =
      if k0 = k then some ⟨off, vl⟩ else lastEntry l k := by
  induction l with
  | nil =>
    show orElseO none (if k0 = k then some ⟨off, vl⟩ else none) = _
    by_cases hk : k0 = k
    · rw [if_pos hk, if_pos hk]; rfl
    · rw [if_neg hk, if_neg hk]; rfl
  | cons r rest ih =>
    show orElseO (lastEntry (rest ++ [(k0, off, vl)]) k)
      (if r.1 = k then some ⟨r.2.1, r.2.2⟩ else none) = _
    rw [ih]
    by_cases hk : k0 = k
    · rw [if_pos hk, if_pos hk]; rfl
    · rw [if_neg hk, if_neg hk]; rfl

/-- Appending one parseable record to a fully replayed log extends the
replayed record sequence by exactly that record and consumes the whole
extended file. -/
theorem replayAux_append {file ext : List Nat} {k : Str} {vl : Nat}
    (hext : readRecord (file ++ ext) file.length = some (k, vl, file.length + ext.length))
    (hlen : 1 ≤ ext.length) :
    ∀ pos, (replayAux file pos).2 = file.length →
      replayAux (file ++ ext) pos =
        ((replayAux file pos).1 ++ [(k, file.length, vl)], file.length + ext.length) := by
  intro pos
  induction pos using replayAux.induct file with
  | case1 pos h =>
    intro hc
    rw [replayAux_stop h] at hc ⊢
    simp only at hc
    subst hc
    rw [replayAux_step hext]
    have hout : readRecord (file ++ ext) (file.length + ext.length) = none :=
      readRecord_out (by simp)
    rw [replayAux_stop hout]
    rfl
  | case2 pos k0 vl0 np h ih =>
    intro hc
    rw [replayAux_step h] at hc ⊢
    simp only at hc
    rw [replayAux_step (readRecord_stable ext h), ih hc]
    simp

/-- The index-log consistency invariant: every key in the index points
at the last replayed record carrying it, and keys without a replayed
record are absent. -/
def IndexInv (st : SimpleKVStore) : Prop :=
  ∀ k, dictGet st.index k = lastEntry (replayAux st.file 0).1 k

theorem IndexInv_rebuildIndex (st : SimpleKVStore) : IndexInv (rebuildIndex st) := by
  intro k
  show dictGet (rebuildLoop st.file 0 []) k = lastEntry (replayAux st.file 0).1 k
  rw [rebuildLoop_eq_foldl, dictGet_foldl]
  cases lastEntry (replayAux st.file 0).1 k <;> rfl

theorem readValueBody_at (file : List Nat) {kb vb : List Nat} (hkb : kb.length < 4294967296) :
    readValueBody (file ++ recordBytes kb vb) ⟨file.length, vb.length⟩ = utf8Decode vb := by
  have e1 : sliceBytes (recordBytes kb vb) 0 4 = toBytesBE4 kb.length := by
    simp [recordBytes, toBytesBE4, sliceBytes]
  have e2 : sliceBytes (recordBytes kb vb) 4 4 = toBytesBE4 vb.length := by
    simp [recordBytes, toBytesBE4, sliceBytes]
  have hassoc : recordBytes kb vb =
      (toBytesBE4 kb.length ++ (toBytesBE4 vb.length ++ kb)) ++ vb := by
    simp [recordBytes, List.append_assoc]
  have hlen8 : (toBytesBE4 kb.length ++ (toBytesBE4 vb.length ++ kb)).length = 8 + kb.length := by
    simp [toBytesBE4_length]
    omega
  have e3v : sliceBytes (recordBytes kb vb) (8 + kb.length) vb.length = vb := by
    unfold sliceBytes
    rw [hassoc, List.drop_left' hlen8, List.take_length]
  unfold readValueBody
  simp only []
  rw [sliceBytes_append_start, e1]
  rw [if_neg (by simp [toBytesBE4_length])]
  rw [fromBytesBE_toBytesBE4 hkb]
  rw [sliceBytes_append_right file (recordBytes kb vb) 4 4, e2]
  rw [if_neg (by simp [toBytesBE4_length])]
  rw [show file.length + 8 + kb.length = file.length + (8 + kb.length) from by omega]
  rw [sliceBytes_append_right file (recordBytes kb vb) (8 + kb.length) vb.length, e3v]
  rw [if_neg (lt_irrefl _)]

/-- The successful set path: the record is appended at the prior
end-of-file and the index entry for the key is overwritten with that
offset and the value byte length. -/
theorem set_ok_eq {st : SimpleKVStore} {key value : Str} (hk : key ≠ [])
    (hkb : (utf8Encode key).length < 4294967296)
    (hvb : (utf8Encode value).length < 4294967296) :
    st.set key value .ok =
      ⟨none, ⟨st.file ++ recordBytes (utf8Encode key) (utf8Encode value),
        dictInsert st.index key ⟨st.file.length, (utf8Encode value).length⟩⟩⟩ := by
  unfold SimpleKVStore.set
  rw [if_neg hk, if_neg (by omega)]

/-- The failing set path: IOError is surfaced and the index is the
pre-call index. -/
theorem set_fail_eq {st : SimpleKVStore} {key value : Str} (n : Nat) (hk : key ≠ [])
    (hkb : (utf8Encode key).length < 4294967296)
    (hvb : (utf8Encode value).length < 4294967296) :
    st.set key value (.fail n) =
      ⟨some .ioError,
        ⟨st.file ++ (recordBytes (utf8Encode key) (utf8Encode value)).take n, st.index⟩⟩ := by
  unfold SimpleKVStore.set
  rw [if_neg hk, if_neg (by omega)]

/-- Whatever the outcome of a set, index entries of other keys are
untouched. -/
theorem dictGet_set_other (st : SimpleKVStore) (key value : Str) (oc : AppendOutcome)
    {k' : Str} (h : k' ≠ key) :
    dictGet (st.set key value oc).st.index k' = dictGet st.index k' := by
  unfold SimpleKVStore.set
  by_cases hk : key = []
  · rw [if_pos hk]
  · rw [if_neg hk]
    simp only []
    by_cases hb : 4294967296 ≤ (utf8Encode key).length ∨ 4294967296 ≤ (utf8Encode value).length
    · rw [if_pos hb]
    · rw [if_neg hb]
      cases oc with
      | ok =>
        show dictGet (dictInsert st.index key ⟨st.file.length, (utf8Encode value).length⟩) k' = _
        rw [dictGet_dictInsert, if_neg h]
      | fail n => rfl

/-- A bounded, valid, successful set preserves the index-log invariant
and full parseability of the log, provided the log was fully parseable
before the call. -/
theorem IndexInv_set {st : SimpleKVStore} {key value : Str}
    (hvalid : ValidStr key) (hk : key ≠ [])
    (hkb : (utf8Encode key).length ≤ 65536)
    (hvb : (utf8Encode value).length ≤ 1048576)
    (hinv : IndexInv st) (hcomp : replayComplete st.file) :
    IndexInv (st.set key value .ok).st ∧ replayComplete (st.set key value .ok).st.file := by
  have hkb32 : (utf8Encode key).length < 4294967296 := by omega
  have hvb32 : (utf8Encode value).length < 4294967296 := by omega
  rw [set_ok_eq hk hkb32 hvb32]
  have hrec : readRecord
      (st.file ++ recordBytes (utf8Encode key) (utf8Encode value)) st.file.length =
      some (key, (utf8Encode value).length,
        st.file.length + (recordBytes (utf8Encode key) (utf8Encode value)).length) :=
    readRecord_at_end st.file hkb hvb (utf8Decode_encode hvalid)
  have hRlen : 1 ≤ (recordBytes (utf8Encode key) (utf8Encode value)).length := by
    rw [recordBytes_length]; omega
  have happ := replayAux_append hrec hRlen 0 hcomp
  constructor
  · intro k
    show dictGet (dictInsert st.index key ⟨st.file.length, (utf8Encode value).length⟩) k =
      lastEntry (replayAux
        (st.file ++ recordBytes (utf8Encode key) (utf8Encode value)) 0).1 k
    rw [dictGet_dictInsert, happ]
    simp only []
    rw [lastEntry_append_single]
    by_cases hkk : k = key
    · rw [if_pos hkk, if_pos hkk.symm]
    · rw [if_neg hkk, if_neg (fun h => hkk h.symm), hinv k]
  · show (replayAux (st.file ++ recordBytes (utf8Encode key) (utf8Encode value)) 0).2 =
      (st.file ++ recordBytes (utf8Encode key) (utf8Encode value)).length
    rw [happ]
    simp

/-- Reading back a record whose bytes end the file returns exactly the
decoded value bytes. -/
theorem get_at_record {f : List Nat} {idx : Dict} {key v : Str} {kb : List Nat}
    (hk : key ≠ [])
    (hidx : dictGet idx key = some ⟨f.length, (utf8Encode v).length⟩)
    (hkb : kb.length < 4294967296) (hv : ValidStr v) :
    (SimpleKVStore.get ⟨f ++ recordBytes kb (utf8Encode v), idx⟩ key).ret = .ok (some v) := by
  unfold SimpleKVStore.get
  rw [if_neg hk]
  simp only []
  rw [hidx]
  simp only []
  rw [readValueBody_at f hkb, utf8Decode_encode hv]

theorem replayComplete_nil : replayComplete ([] : List Nat) := by
  show (replayAux [] 0).2 = 0
  rw [replayAux_stop (by decide)]

theorem IndexInv_emptyStore : IndexInv emptyStore := by
  intro k
  show dictGet [] k = lastEntry (replayAux [] 0).1 k
  rw [replayAux_stop (by decide)]
  rfl

/-- A key no set ever targets stays absent from the index across any
sequence of sets, whatever their I/O outcomes. -/
theorem dictGet_applyOps_none {k : Str} :
    ∀ (ops : List (Str × Str × AppendOutcome)) (st : SimpleKVStore),
      dictGet st.index k = none → (∀ x ∈ ops, x.1 ≠ k) →
      dictGet (applyOps st ops).index k = none := by
  intro ops
  induction ops with
  | nil => intro st h _; exact h
  | cons p rest ih =>
    intro st h havoid
    obtain ⟨pk, pv, poc⟩ := p
    show dictGet (applyOps (st.set pk pv poc).st rest).index k = none
    apply ih
    · rw [dictGet_set_other st pk pv poc
        (fun he => (havoid (pk, pv, poc) (by simp)) he.symm)]
      exact h
    · intro x hx
      exact havoid x (by simp [hx])

/-! ## Claims -/

/-- Claim C1: the claim states that when a key is present in the index
but reading its record from the log fails, get surfaces an error
distinct from not-found.  The code does the opposite: the except
clauses at src/kv_store.py lines 413-429 catch the read error and
return None, the not-found outcome.  At the concrete failing input
below (index entry for key "k" pointing at offset 0 of an empty log,
the state left by an external truncation after startup), the read body
fails, yet get returns exactly the same result as a get on a store
where the key was never set. -/
theorem claim_C1_get_error_swallowed :
    dictGet (⟨[], [([107], ⟨0, 1⟩)]⟩ : SimpleKVStore).index [107] = some ⟨0, 1⟩ ∧
    readValueBody ([] : List Nat) ⟨0, 1⟩ = none ∧
    ((⟨[], [([107], ⟨0, 1⟩)]⟩ : SimpleKVStore).get [107]).ret = .ok none ∧
    ((⟨[], []⟩ : SimpleKVStore).get [107]).ret = .ok none :=
  ⟨by decide, by decide, by decide, by decide⟩

/-- Claim C2: the claim states that a log of N complete records followed
by one truncated fragment rebuilds to an index of exactly the N complete
records, for truncation inside any field.  When the truncation falls
inside the value bytes the code indexes the fragment as well: the seek
that skips the value succeeds past end-of-file, so the except-OSError
stop condition never fires.  Concretely, one complete record
(key "a", value "x") followed by a fragment (key "b", declared value
length 2, only one value byte present) rebuilds to an index of two
entries: the fragment for "b" is indexed at offset 10 with value length
2, though the claim requires an index of exactly one entry. -/
theorem claim_C2_torn_value_indexed :
    (rebuildIndex ⟨[0, 0, 0, 1, 0, 0, 0, 1, 97, 120, 0, 0, 0, 1, 0, 0, 0, 2, 98, 99], []⟩).index =
      [([97], ⟨0, 1⟩), ([98], ⟨10, 2⟩)] := by
  show rebuildLoop [0, 0, 0, 1, 0, 0, 0, 1, 97, 120, 0, 0, 0, 1, 0, 0, 0, 2, 98, 99] 0 [] = _
  rw [rebuildLoop.eq_def,
    show readRecord [0, 0, 0, 1, 0, 0, 0, 1, 97, 120, 0, 0, 0, 1, 0, 0, 0, 2, 98, 99] 0 =
      some ([97], 1, 10) from by decide]
  show rebuildLoop [0, 0, 0, 1, 0, 0, 0, 1, 97, 120, 0, 0, 0, 1, 0, 0, 0, 2, 98, 99] 10
    [([97], ⟨0, 1⟩)] = _
  rw [rebuildLoop.eq_def,
    show readRecord [0, 0, 0, 1, 0, 0, 0, 1, 97, 120, 0, 0, 0, 1, 0, 0, 0, 2, 98, 99] 10 =
      some ([98], 2, 21) from by decide]
  show rebuildLoop [0, 0, 0, 1, 0, 0, 0, 1, 97, 120, 0, 0, 0, 1, 0, 0, 0, 2, 98, 99] 21
    [([97], ⟨0, 1⟩), ([98], ⟨10, 2⟩)] = _
  rw [rebuildLoop.eq_def,
    show readRecord [0, 0, 0, 1, 0, 0, 0, 1, 97, 120, 0, 0, 0, 1, 0, 0, 0, 2, 98, 99] 21 =
      none from by decide]

/-- Claim C3: for every valid non-empty key and valid value (validity as
in the specification: encodable text whose encoded lengths are
representable in 32 bits), a successful set followed immediately by get
on the same store returns exactly the written value. -/
theorem claim_C3_roundtrip (st : SimpleKVStore) (k v : Str)
    (hkv : ValidStr k) (hvv : ValidStr v) (hk : k ≠ [])
    (hkb : (utf8Encode k).length < 4294967296)
    (hvb : (utf8Encode v).length < 4294967296) :
    ((st.set k v .ok).st.get k).ret = .ok (some v) := by
  rw [set_ok_eq hk hkb hvb]
  exact get_at_record hk (by rw [dictGet_dictInsert, if_pos rfl]) hkb hvv

theorem claim_C3_roundtrip_witness :
    ValidStr [97] ∧ ValidStr [98, 99] ∧ ([97] : Str) ≠ [] ∧
    (utf8Encode [97]).length < 4294967296 ∧ (utf8Encode [98, 99]).length < 4294967296 ∧
    ((emptyStore.set [97] [98, 99] .ok).st.get [97]).ret = .ok (some [98, 99]) :=
  ⟨by decide, by decide, by decide, by decide, by decide,
    claim_C3_roundtrip emptyStore [97] [98, 99] (by decide) (by decide) (by decide)
      (by decide) (by decide)⟩

/-- Claim C5: if the append I/O of a set fails at any point (after any
number of record bytes reached the file), the error propagates to the
caller and the index is left exactly as it was: the index update is
unreachable on the failure path. -/
theorem claim_C5_set_failure_frame (st : SimpleKVStore) (k v : Str) (n : Nat)
    (hk : k ≠ [])
    (hkb : (utf8Encode k).length < 4294967296)
    (hvb : (utf8Encode v).length < 4294967296) :
    (st.set k v (.fail n)).err = some .ioError ∧
    (st.set k v (.fail n)).st.index = st.index := by
  rw [set_fail_eq n hk hkb hvb]
  exact ⟨rfl, rfl⟩

theorem claim_C5_set_failure_frame_witness :
    ([97] : Str) ≠ [] ∧
    (emptyStore.set [97] [98] (.fail 3)).err = some .ioError ∧
    (emptyStore.set [97] [98] (.fail 3)).st.index = emptyStore.index :=
  ⟨by decide,
    (claim_C5_set_failure_frame emptyStore [97] [98] 3 (by decide) (by decide) (by decide)).1,
    (claim_C5_set_failure_frame emptyStore [97] [98] 3 (by decide) (by decide) (by decide)).2⟩

/-- The record layout of the specification, transcribed from its words
(one record: 4-byte big-endian unsigned key length, 4-byte big-endian
unsigned value length, raw UTF-8 key bytes, raw UTF-8 value bytes, no
separators or further framing). -/
def recordEncodingSpec (k v : Str) : List Nat :=
  toBytesBE4 (utf8Encode k).length ++ toBytesBE4 (utf8Encode v).length ++
    utf8Encode k ++ utf8Encode v

/-- Claim C7: every successful set appends to the end of the file
exactly the record encoding stated in the specification, and the index
entry recorded for the key holds the end-of-file position from before
the write together with the value byte length. -/
theorem claim_C7_append_format (st : SimpleKVStore) (k v : Str) (hk : k ≠ [])
    (hkb : (utf8Encode k).length < 4294967296)
    (hvb : (utf8Encode v).length < 4294967296) :
    (st.set k v .ok).err = none ∧
    (st.set k v .ok).st.file = st.file ++ recordEncodingSpec k v ∧
    dictGet (st.set k v .ok).st.index k =
      some ⟨st.file.length, (utf8Encode v).length⟩ := by
  rw [set_ok_eq hk hkb hvb]
  refine ⟨rfl, rfl, ?_⟩
  show dictGet (dictInsert st.index k ⟨st.file.length, (utf8Encode v).length⟩) k = _
  rw [dictGet_dictInsert, if_pos rfl]

theorem claim_C7_append_format_witness :
    ([97] : Str) ≠ [] ∧
    (emptyStore.set [97] [98] .ok).err = none ∧
    (emptyStore.set [97] [98] .ok).st.file = emptyStore.file ++ recordEncodingSpec [97] [98] ∧
    dictGet (emptyStore.set [97] [98] .ok).st.index [97] =
      some ⟨emptyStore.file.length, (utf8Encode [98]).length⟩ :=
  ⟨by decide,
    (claim_C7_append_format emptyStore [97] [98] (by decide) (by decide) (by decide)).1,
    (claim_C7_append_format emptyStore [97] [98] (by decide) (by decide) (by decide)).2.1,
    (claim_C7_append_format emptyStore [97] [98] (by decide) (by decide) (by decide)).2.2⟩

/-- Claim C6 counterexample: the claim asserts its invariant is
preserved by every set from every quiescent state.  The store below is
quiescent (its index is exactly what rebuild computes for its log, a
bare four-byte torn fragment) and satisfies the invariant, yet after a
successful set of key "k" the index holds an entry for "k" while
replaying the written log yields no record for "k" at all: appending
after a torn tail makes the tail parse as a record prefix and the new
record unreachable, so set does not preserve the invariant. -/
theorem claim_C6_counterexample :
    rebuildIndex ⟨[0, 0, 0, 1], []⟩ = ⟨[0, 0, 0, 1], []⟩ ∧
    IndexInv ⟨[0, 0, 0, 1], []⟩ ∧
    (SimpleKVStore.set ⟨[0, 0, 0, 1], []⟩ [107] [118] .ok).err = none ∧
    dictGet (SimpleKVStore.set ⟨[0, 0, 0, 1], []⟩ [107] [118] .ok).st.index [107] =
      some ⟨4, 1⟩ ∧
    lastEntry
      (replayAux (SimpleKVStore.set ⟨[0, 0, 0, 1], []⟩ [107] [118] .ok).st.file 0).1
      [107] = none := by
  refine ⟨?_, ?_, by decide, by decide, ?_⟩
  · show (⟨[0, 0, 0, 1], rebuildLoop [0, 0, 0, 1] 0 []⟩ : SimpleKVStore) = _
    rw [rebuildLoop_stop (by decide)]
  · intro k
    show dictGet [] k = lastEntry (replayAux [0, 0, 0, 1] 0).1 k
    rw [replayAux_stop (by decide)]
    rfl
  · show lastEntry (replayAux [0, 0, 0, 1, 0, 0, 0, 1, 0, 0, 0, 1, 107, 118] 0).1 [107] = none
    rw [replayAux_step
      (show readRecord [0, 0, 0, 1, 0, 0, 0, 1, 0, 0, 0, 1, 107, 118] 0 =
        some ([0], 1, 10) from by decide)]
    rw [replayAux_stop
      (show readRecord [0, 0, 0, 1, 0, 0, 0, 1, 0, 0, 0, 1, 107, 118] 10 = none from by decide)]
    decide

/-- Claim C6 (amended): rebuild always establishes the invariant that
every indexed key points at the last replayed record carrying it and
keys without a replayed record are absent; and a successful set whose
key and value stay within the replay sanity bounds preserves the
invariant provided the pre-state log parses completely (no torn tail),
the completeness itself being preserved. -/
theorem claim_C6_amended_invariant :
    (∀ st : SimpleKVStore, IndexInv (rebuildIndex st)) ∧
    (∀ (st : SimpleKVStore) (k v : Str), ValidStr k → k ≠ [] →
      (utf8Encode k).length ≤ 65536 → (utf8Encode v).length ≤ 1048576 →
      IndexInv st → replayComplete st.file →
      (st.set k v .ok).err = none ∧ IndexInv (st.set k v .ok).st ∧
        replayComplete (st.set k v .ok).st.file) := by
  constructor
  · exact IndexInv_rebuildIndex
  · intro st k v hkv hk hkb hvb hinv hcomp
    have h := IndexInv_set hkv hk hkb hvb hinv hcomp
    refine ⟨?_, h.1, h.2⟩
    rw [set_ok_eq hk (by omega) (by omega)]

theorem claim_C6_amended_invariant_witness :
    ValidStr [97] ∧ ([97] : Str) ≠ [] ∧
    (utf8Encode [97]).length ≤ 65536 ∧ (utf8Encode [98]).length ≤ 1048576 ∧
    IndexInv emptyStore ∧ replayComplete emptyStore.file ∧
    ((emptyStore.set [97] [98] .ok).err = none ∧
      IndexInv (emptyStore.set [97] [98] .ok).st ∧
      replayComplete (emptyStore.set [97] [98] .ok).st.file) :=
  ⟨by decide, by decide, by decide, by decide, IndexInv_emptyStore, replayComplete_nil,
    claim_C6_amended_invariant.2 emptyStore [97] [98] (by decide) (by decide) (by decide)
      (by decide) IndexInv_emptyStore replayComplete_nil⟩

/-- Claim C8: a non-empty key that no set of the session ever targeted
(the store starting from an empty log) is reported not-found by get,
never an error, whatever the sets and their I/O outcomes were. -/
theorem claim_C8_notfound (ops : List (Str × Str × AppendOutcome)) (k : Str)
    (hk : k ≠ []) (havoid : ∀ x ∈ ops, x.1 ≠ k) :
    ((applyOps emptyStore ops).get k).ret = .ok none := by
  unfold SimpleKVStore.get
  rw [if_neg hk]
  rw [dictGet_applyOps_none ops emptyStore rfl havoid]

theorem claim_C8_notfound_witness :
    ([99] : Str) ≠ [] ∧
    (∀ x ∈ [(([97] : Str), ([98] : Str), AppendOutcome.ok)], x.1 ≠ ([99] : Str)) ∧
    ((applyOps emptyStore [([97], [98], .ok)]).get [99]).ret = .ok none :=
  ⟨by decide, by decide,
    claim_C8_notfound [([97], [98], .ok)] [99] (by decide) (by decide)⟩

/-- Claim C9: rebuilding twice over an unmodified log yields exactly the
same index contents as rebuilding once, and the result of a rebuild does
not depend on the index contents it replaces. -/
theorem claim_C9_rebuild_idempotent :
    (∀ st : SimpleKVStore, (rebuildIndex (rebuildIndex st)).index = (rebuildIndex st).index) ∧
    (∀ (file : List Nat) (idx1 idx2 : Dict),
      (rebuildIndex ⟨file, idx1⟩).index = (rebuildIndex ⟨file, idx2⟩).index) :=
  ⟨fun _ => rfl, fun _ _ _ => rfl⟩

/-- Claim C10: a set leaves the index entry of every other key (and its
absence) unchanged, whatever the I/O outcome; and a get returns the
store state untouched: its read path performs no writes to index or
log. -/
theorem claim_C10_frame :
    (∀ (st : SimpleKVStore) (k v : Str) (oc : AppendOutcome) (k' : Str), k' ≠ k →
      dictGet (st.set k v oc).st.index k' = dictGet st.index k') ∧
    (∀ (st : SimpleKVStore) (k : Str), (st.get k).st = st) := by
  constructor
  · intro st k v oc k' h
    exact dictGet_set_other st k v oc h
  · intro st k
    unfold SimpleKVStore.get
    by_cases hk : k = []
    · rw [if_pos hk]
    · rw [if_neg hk]
      cases dictGet st.index k with
      | none => rfl
      | some e =>
        show (match readValueBody st.file e with
          | some v => ({ ret := Except.ok (some v), st := st } : GetResult)
          | none => { ret := Except.ok none, st := st }).st = st
        cases readValueBody st.file e <;> rfl

theorem claim_C10_frame_witness :
    ([99] : Str) ≠ [97] ∧
    dictGet ((emptyStore.set [97] [98] .ok).st.index) [99] = dictGet emptyStore.index [99] ∧
    ((emptyStore.set [97] [98] .ok).st.get [97]).st = (emptyStore.set [97] [98] .ok).st :=
  ⟨by decide,
    claim_C10_frame.1 emptyStore [97] [98] .ok [99] (by decide),
    claim_C10_frame.2 (emptyStore.set [97] [98] .ok).st [97]⟩

/-- Claim C4: after set(k, v1) then set(k, v2), get(k) returns v2; and
after dropping the index and rebuilding it by replaying the same log,
get(k) still returns v2 — the later (higher-offset) write wins.  Stated
for stores whose log parses completely (the state of every store built
by normal operation; torn-tail pre-states are settled under C6) and for
keys and values within the replay sanity bounds, with arbitrary values
in place of the literal "a" and "b". -/
theorem claim_C4_last_write_wins (st : SimpleKVStore) (k v1 v2 : Str)
    (hkv : ValidStr k) (hv1 : ValidStr v1) (hv2 : ValidStr v2) (hk : k ≠ [])
    (hkb : (utf8Encode k).length ≤ 65536)
    (hvb1 : (utf8Encode v1).length ≤ 1048576)
    (hvb2 : (utf8Encode v2).length ≤ 1048576)
    (hcomp : replayComplete st.file) :
    ((((st.set k v1 .ok).st.set k v2 .ok).st.get k).ret = .ok (some v2)) ∧
    (((rebuildIndex ((st.set k v1 .ok).st.set k v2 .ok).st).get k).ret = .ok (some v2)) := by
  have hkb32 : (utf8Encode k).length < 4294967296 := by omega
  have hv132 : (utf8Encode v1).length < 4294967296 := by omega
  have hv232 : (utf8Encode v2).length < 4294967296 := by omega
  rw [set_ok_eq hk hkb32 hv132, set_ok_eq hk hkb32 hv232]
  constructor
  · exact get_at_record hk (by rw [dictGet_dictInsert, if_pos rfl]) hkb32 hv2
  · have hrec1 : readRecord (st.file ++ recordBytes (utf8Encode k) (utf8Encode v1))
        st.file.length =
        some (k, (utf8Encode v1).length,
          st.file.length + (recordBytes (utf8Encode k) (utf8Encode v1)).length) :=
      readRecord_at_end st.file hkb hvb1 (utf8Decode_encode hkv)
    have happ1 := replayAux_append hrec1 (by rw [recordBytes_length]; omega) 0 hcomp
    have hcomp1 : replayComplete (st.file ++ recordBytes (utf8Encode k) (utf8Encode v1)) := by
      show (replayAux (st.file ++ recordBytes (utf8Encode k) (utf8Encode v1)) 0).2 =
        (st.file ++ recordBytes (utf8Encode k) (utf8Encode v1)).length
      rw [happ1]
      simp
    have hrec2 : readRecord
        ((st.file ++ recordBytes (utf8Encode k) (utf8Encode v1)) ++
          recordBytes (utf8Encode k) (utf8Encode v2))
        (st.file ++ recordBytes (utf8Encode k) (utf8Encode v1)).length =
        some (k, (utf8Encode v2).length,
          (st.file ++ recordBytes (utf8Encode k) (utf8Encode v1)).length +
            (recordBytes (utf8Encode k) (utf8Encode v2)).length) :=
      readRecord_at_end _ hkb hvb2 (utf8Decode_encode hkv)
    have happ2 := replayAux_append hrec2 (by rw [recordBytes_length]; omega) 0 hcomp1
    have hidx : dictGet (rebuildIndex
        ⟨(st.file ++ recordBytes (utf8Encode k) (utf8Encode v1)) ++
            recordBytes (utf8Encode k) (utf8Encode v2),
          dictInsert (dictInsert st.index k ⟨st.file.length, (utf8Encode v1).length⟩) k
            ⟨(st.file ++ recordBytes (utf8Encode k) (utf8Encode v1)).length,
              (utf8Encode v2).length⟩⟩).index k =
        some ⟨(st.file ++ recordBytes (utf8Encode k) (utf8Encode v1)).length,
          (utf8Encode v2).length⟩ := by
      rw [IndexInv_rebuildIndex _ k]
      show lastEntry (replayAux
        ((st.file ++ recordBytes (utf8Encode k) (utf8Encode v1)) ++
          recordBytes (utf8Encode k) (utf8Encode v2)) 0).1 k = _
      rw [happ2]
      simp only []
      rw [lastEntry_append_single, if_pos rfl]
    exact get_at_record hk hidx hkb32 hv2

theorem claim_C4_last_write_wins_witness :
    ValidStr [107] ∧ ([107] : Str) ≠ [] ∧ replayComplete emptyStore.file ∧
    ((((emptyStore.set [107] [97] .ok).st.set [107] [98] .ok).st.get [107]).ret =
      .ok (some [98])) ∧
    (((rebuildIndex ((emptyStore.set [107] [97] .ok).st.set [107] [98] .ok).st).get
      [107]).ret = .ok (some [98])) :=
  ⟨by decide, by decide, replayComplete_nil,
    (claim_C4_last_write_wins emptyStore [107] [97] [98] (by decide) (by decide) (by decide)
      (by decide) (by decide) (by decide) (by decide) replayComplete_nil).1,
    (claim_C4_last_write_wins emptyStore [107] [97] [98] (by decide) (by decide) (by decide)
      (by decide) (by decide) (by decide) (by decide) replayComplete_nil).2⟩
